import Mathlib

/-!
Verification development for the FINN bit-packing codec
(`src/finn/util/data_packing.py`).

The sample container in the source is a `numpy.float32` array; every value a
claim exercises (small integers, the bipolar values `-1`/`1`, and the halves
produced by the bipolar transform) is exactly representable there, so samples
are embedded as exact rationals `ℚ` and the float container's rounding is not
modelled.  The 32-bit float element domain (IEEE-754 bit reinterpretation) is
outside this embedding; no claim depends on it.  Packed words are embedded as
Lean `String`s, bit strings as `List Nat` of binary digits, mirroring the
`bitstring.BitArray` / `bin` / `zfill` manipulations of the source.
-/

deriving instance DecidableEq for Except

/-- Errors of the Row Encoder (`array2hexstring`), named as in the spec:
`invalidValue` models the `assert dtype.allowed(val)` failure,
`packingOverflow` the `raise Exception("Number of bits is greater than
pad_to_nbits")`, and `hexNotNibbleAligned` the `bitstring` `InterpretError`
raised by `lineval.hex` when the final bit length is not a multiple of 4. -/
inductive PackError where
  | invalidValue
  | packingOverflow
  | hexNotNibbleAligned
deriving DecidableEq, Repr

/-- Errors of the Row Decoder / Tensor Unpacker
(`unpack_innermost_dim_from_hex_string`): `malformedWord` models the Python
`ValueError`/`IndexError` raised while splitting or parsing a hex word or by
`int("", 2)` on an empty chunk slice; `missingWord` the `IndexError` of
`data[0]` on an exhausted input sequence; `emptyShape` the `IndexError` of
`shape[-1]` on an empty shape. -/
inductive UnpackError where
  | malformedWord
  | missingWord
  | emptyShape
deriving DecidableEq, Repr

/-- Modelled from the spec: the external Numeric Domain Descriptor
(`finn.core.datatype.DataType`, not part of the packaged sources) is one of
bipolar, 1-bit binary, unsigned integer of width W, or signed integer of
width W.  The 32-bit float domain is omitted (see the file header).  The
fixed-width members referenced by the source (`DataType.INT2`,
`DataType.INT32`, `DataType.BINARY`, `DataType.BIPOLAR`, `DataType.UINT2`,
...) are `INT 2`, `INT 32`, `BINARY`, `BIPOLAR`, `UINT 2`, ... here. -/
inductive DataType where
  | BIPOLAR
  | BINARY
  | UINT (w : Nat)
  | INT (w : Nat)
deriving DecidableEq, Repr

/-- Modelled from the spec: `bitwidth()` of the domain descriptor. -/
def DataType.bitwidth : DataType → Nat
  | .BIPOLAR => 1
  | .BINARY => 1
  | .UINT w => w
  | .INT w => w

/-- Modelled from the spec: `signed()` of the domain descriptor, as consulted
by the encoder (the bipolar domain is rewritten to `BINARY` before the
encoder ever queries signedness). -/
def DataType.signed : DataType → Bool
  | .INT _ => true
  | _ => false

/-- Modelled from the spec: `allowed(value)`, the legality predicate of the
domain descriptor.  Bipolar admits exactly -1 and 1, binary exactly 0 and 1,
and a W-bit integer domain admits exactly the integers of its two's-complement
or unsigned range. -/
def DataType.allowed : DataType → ℚ → Prop
  | .BIPOLAR, q => q = -1 ∨ q = 1
  | .BINARY, q => q = 0 ∨ q = 1
  | .UINT w, q => q.den = 1 ∧ 0 ≤ q.num ∧ q.num < 2 ^ w
  | .INT w, q => q.den = 1 ∧ -(2 ^ (w - 1) : Int) ≤ q.num ∧ q.num < 2 ^ (w - 1)

instance (d : DataType) (q : ℚ) : Decidable (d.allowed q) :=
  match d with
  | .BIPOLAR => inferInstanceAs (Decidable (_ ∨ _))
  | .BINARY => inferInstanceAs (Decidable (_ ∨ _))
  | .UINT _ => inferInstanceAs (Decidable (_ ∧ _))
  | .INT _ => inferInstanceAs (Decidable (_ ∧ _))

/-- Python `int(val)`: truncation of an exact value toward zero. -/
def pyTrunc (q : ℚ) : Int := Int.tdiv q.num (q.den : Int)

/-- The W-bit field one sample contributes to the packed word, as an unsigned
machine value: `BitArray(int=int(val), length=bw)` appends the
two's-complement pattern of a signed sample (numerically `int(val) mod 2^bw`),
`BitArray(uint=int(val), length=bw)` the plain unsigned pattern. -/
def elemBits (dtype : DataType) (q : ℚ) : Nat :=
  if dtype.signed then ((pyTrunc q).emod (2 ^ dtype.bitwidth)).toNat
  else (pyTrunc q).toNat

/-- The encoder's per-sample loop: check `dtype.allowed(val)` for each sample
in order (first offender aborts, as the Python `assert` does) and collect the
per-sample bit fields in sample order. -/
def encodeVals (dtype : DataType) : List ℚ → Except PackError (List Nat)
  | [] => .ok []
  | q :: rest =>
    if dtype.allowed q then
      match encodeVals dtype rest with
      | .ok vs => .ok (elemBits dtype q :: vs)
      | .error e => .error e
    else .error .invalidValue

/-- The sixteen lowercase hex digit characters, least value first. -/
def hexAlphabet : List Char := "0123456789abcdef".data

/-- The lowercase hex digit character of a value below 16. -/
def hexDigit (m : Nat) : Char := hexAlphabet.getD m '0'

/-- Fixed-width lowercase hex rendering, most significant digit first: the
`BitArray.hex` view of a bit string of length `4 * d` holding the value
`n` (exactly `d` digits, leading zeros kept). -/
def natToHex (n : Nat) : Nat → List Char
  | 0 => []
  | d + 1 => natToHex (n / 16) d ++ [hexDigit (n % 16)]

/-- `array2hexstring(array, dtype, pad_to_nbits)` of the source: pack a 1-D
sample vector into one `0x`-prefixed hex string.

Line-by-line correspondence with the source: the padding floor
(`if pad_to_nbits < 4: pad_to_nbits = 4`); the bipolar rewrite
(`array = (array + 1) / 2; dtype = DataType.BINARY`, exact on floats for the
values in play); the per-sample loop (`encodeVals`); the concatenated word
value (each `append` shifts the accumulated word left by `bw` bits, so the
word is a left fold); the zero-extension versus overflow check
(`pad_to_nbits >= lineval.len`, with `lineval.len = len(array) * bw`; the
prepended zeros do not change the word value); and the hex rendering
(`prefix + lineval.hex`, which raises unless the final length is a multiple
of 4). -/
def array2hexstring (array : List ℚ) (dtype : DataType) (pad_to_nbits : Nat) :
    Except PackError String :=
  let pad := if pad_to_nbits < 4 then 4 else pad_to_nbits
  let arr := if dtype = DataType.BIPOLAR then array.map (fun x => (x + 1) / 2) else array
  let dt := if dtype = DataType.BIPOLAR then DataType.BINARY else dtype
  let bw := dt.bitwidth
  match encodeVals dt arr with
  | .error e => .error e
  | .ok fields =>
    let n := fields.foldl (fun a x => a * 2 ^ bw + x) 0
    if pad ≥ arr.length * bw then
      if pad % 4 = 0 then .ok ("0x" ++ String.mk (natToHex n (pad / 4)))
      else .error .hexNotNibbleAligned
    else .error .packingOverflow

/-- `mapOrFail f l`: apply a fallible function to every element in order,
aborting at the first failure (the monadic `map` both
`pack_innermost_dim_as_hex_string` and the decoder's chunk loop perform). -/
def mapOrFail {ε α β : Type} (f : α → Except ε β) : List α → Except ε (List β)
  | [] => .ok []
  | a :: l =>
    match f a with
    | .error e => .error e
    | .ok b =>
      match mapOrFail f l with
      | .error e => .error e
      | .ok bs => .ok (b :: bs)

mutual
/-- A rank-`n` numpy ndarray: rank 0 is a scalar cell, rank `n+1` a sequence
of rank-`n` subarrays.  (The sequence is a separate mutual inductive because
the kernel rejects `List` nesting under a varying index; `NDList.toList`
recovers the ordinary list view.  Regularity of the nesting is a separate
predicate, `hasShape`, since a numpy array always carries a rectangular
shape.) -/
inductive ND (α : Type) : Nat → Type where
  | scalar (a : α) : ND α 0
  | node {n : Nat} (subs : NDList α n) : ND α (n + 1)
/-- The sequence of subarrays of a rank-`n+1` array; see `ND`. -/
inductive NDList (α : Type) : Nat → Type where
  | nil {n : Nat} : NDList α n
  | cons {n : Nat} (t : ND α n) (ts : NDList α n) : NDList α n
end

/-- The ordinary list of subarrays of an `NDList`. -/
def NDList.toList {α : Type} {n : Nat} : NDList α n → List (ND α n)
  | .nil => []
  | .cons t ts => t :: ts.toList

/-- Rebuild an `NDList` from a list of subarrays. -/
def NDList.ofList {α : Type} {n : Nat} : List (ND α n) → NDList α n
  | [] => .nil
  | t :: ts => .cons t (NDList.ofList ts)

/-- The value held by a rank-0 array. -/
def ND.unscalar {α : Type} : ND α 0 → α
  | .scalar a => a

/-- The sample list of a rank-1 array (one innermost-dimension slice). -/
def extractRow {α : Type} : ND α 1 → List α
  | .node cells => cells.toList.map ND.unscalar

/-- `hasShape t s`: the array is rectangular with shape `s` (one extent per
rank, outermost first). -/
def hasShape {α : Type} : {n : Nat} → ND α n → List Nat → Prop
  | 0, _, s => s = []
  | n + 1, .node subs, s =>
    match s with
    | [] => False
    | k :: s2 =>
      subs.toList.length = k ∧ s2.length = n ∧ ∀ t ∈ subs.toList, hasShape (n := n) t s2

/-- The scalar cell of a rank-`n` array at a full index path (length `n`). -/
def cellAt {α : Type} : {n : Nat} → ND α n → List Nat → Option α
  | 0, t, p =>
    match p with
    | [] => some t.unscalar
    | _ :: _ => none
  | n + 1, .node subs, p =>
    match p with
    | [] => none
    | i :: p2 => (subs.toList[i]?).bind (fun t => cellAt (n := n) t p2)

/-- The innermost-dimension slice of a rank-`n+1` array at an index path for
all dimensions but the last (length `n`). -/
def sliceAt {α : Type} : {n : Nat} → ND α (n + 1) → List Nat → Option (List α)
  | 0, t, p =>
    match p with
    | [] => some (extractRow t)
    | _ :: _ => none
  | n + 1, .node subs, p =>
    match p with
    | [] => none
    | i :: p2 => (subs.toList[i]?).bind (fun t => sliceAt (n := n) t p2)

/-- `pack_innermost_dim_as_hex_string(ndarray, dtype, pad_to_nbits)` of the
source: `np.apply_along_axis` of `array2hexstring` over the last axis, i.e.
replace every innermost-dimension slice by its Row Encoder hex string,
collapsing rank `n+1` to rank `n`.  A Row Encoder failure propagates (the
Python exception aborts `apply_along_axis`). -/
def pack_innermost_dim_as_hex_string (dtype : DataType) (pad_to_nbits : Nat) :
    (n : Nat) → ND ℚ (n + 1) → Except PackError (ND String n)
  | 0, t =>
    match array2hexstring (extractRow t) dtype pad_to_nbits with
    | .error e => .error e
    | .ok s => .ok (.scalar s)
  | n + 1, .node subs =>
    match mapOrFail (pack_innermost_dim_as_hex_string dtype pad_to_nbits n) subs.toList with
    | .error e => .error e
    | .ok outs => .ok (.node (NDList.ofList outs))

/-- Bitwise AND of two naturals (binary recursion with an explicit fuel so
that the definition is structural and kernel-evaluable; `natAnd` supplies
fuel `a`, which bounds the bit count of `a`). -/
def natAndAux : Nat → Nat → Nat → Nat
  | 0, _, _ => 0
  | fuel + 1, a, b =>
    if a = 0 then 0
    else natAndAux fuel (a / 2) (b / 2) * 2 + (a % 2) * (b % 2)

/-- Bitwise AND of two naturals. -/
def natAnd (a b : Nat) : Nat := natAndAux a a b

/-- Python's `&` on arbitrary-precision two's-complement integers.  A negative
operand `Int.negSucc m` stands for the complement of the bits of `m`, giving
the four standard cases (for the two mixed cases, `a & ~m` keeps exactly the
bits of `a` outside `m`, numerically `a - (a & m)`). -/
def pyAnd : Int → Int → Int
  | .ofNat a, .ofNat b => .ofNat (natAnd a b)
  | .ofNat a, .negSucc m => .ofNat (a - natAnd a m)
  | .negSucc m, .ofNat b => .ofNat (b - natAnd b m)
  | .negSucc m, .negSucc k => .negSucc (m + k - natAnd m k)

/-- Python's `~` on arbitrary-precision two's-complement integers. -/
def pyNot (a : Int) : Int := -(a + 1)

/-- MSB-first binary digits of a positive natural, no leading zeros (fuel
recursion as in `natAndAux`; `recBits` supplies fuel `n`). -/
def natBitsAux : Nat → Nat → List Nat
  | 0, _ => []
  | fuel + 1, n => if n = 0 then [] else natBitsAux fuel (n / 2) ++ [n % 2]

/-- MSB-first binary digits of a natural, no leading zeros (`[]` for 0). -/
def recBits (n : Nat) : List Nat := natBitsAux n n

/-- Python `bin(n)[2:]` as a digit list: MSB-first binary digits, a single
`0` for zero. -/
def pyBin (n : Nat) : List Nat := if n = 0 then [0] else recBits n

/-- Python `str.zfill(w)`: left-pad with zeros to length at least `w`. -/
def zfill (l : List Nat) (w : Nat) : List Nat := List.replicate (w - l.length) 0 ++ l

/-- Python `str.split(c)` for a single-character separator. -/
def splitOnChar (c : Char) : List Char → List (List Char)
  | [] => [[]]
  | a :: rest =>
    let r := splitOnChar c rest
    if a = c then [] :: r
    else
      match r with
      | h :: t => (a :: h) :: t
      | [] => [[a]]

/-- The value of one hex digit character, upper or lower case (`none` for a
character `int(s, 16)` rejects; whitespace/sign/underscore forms never occur
in the strings this codec produces or parses). -/
def hexCharVal (c : Char) : Option Nat :=
  if c = '0' then some 0 else if c = '1' then some 1
  else if c = '2' then some 2 else if c = '3' then some 3
  else if c = '4' then some 4 else if c = '5' then some 5
  else if c = '6' then some 6 else if c = '7' then some 7
  else if c = '8' then some 8 else if c = '9' then some 9
  else if c = 'a' then some 10 else if c = 'b' then some 11
  else if c = 'c' then some 12 else if c = 'd' then some 13
  else if c = 'e' then some 14 else if c = 'f' then some 15
  else if c = 'A' then some 10 else if c = 'B' then some 11
  else if c = 'C' then some 12 else if c = 'D' then some 13
  else if c = 'E' then some 14 else if c = 'F' then some 15
  else none

/-- Left-to-right accumulation of hex digit values (`none` at the first
invalid character). -/
def hexAcc (acc : Nat) : List Char → Option Nat
  | [] => some acc
  | c :: cs =>
    match hexCharVal c with
    | some v => hexAcc (16 * acc + v) cs
    | none => none

/-- Python `int(s, 16)` on a plain digit string: at least one digit, all
digits valid. -/
def parseHexDigits (l : List Char) : Option Nat :=
  if l.isEmpty then none else hexAcc 0 l

/-- The decoder's word parse: `ar_elem.split("x")` followed by
`int(ar_elem[1], 16)` — everything before the first `x` is ignored, the
digits between the first and second `x` (or the end) are the word value.
Fails (`IndexError`/`ValueError`) when there is no `x` or the digit run is
empty or invalid. -/
def parseHexWord (s : String) : Except UnpackError Nat :=
  match splitOnChar 'x' s.data with
  | _ :: second :: _ =>
    match parseHexDigits second with
    | some n => .ok n
    | none => .error .malformedWord
  | _ => .error .malformedWord

/-- One chunk of the reversed bit list: `elem = ar_elem_bin[lo:hi]` (Python
slicing clamps at the list end), `elem.reverse()`, `int(..., 2)` — which
raises on an empty slice. -/
def chunkInt (bits : List Nat) (lo hi : Nat) : Except UnpackError Nat :=
  let elem := (bits.drop lo).take (hi - lo)
  if elem.isEmpty then .error .malformedWord
  else .ok (elem.reverse.foldl (fun a b => 2 * a + b) 0)

/-- The tail of the decoder's per-word loop: `if rtlsim is False` reverse the
chunk list back to sample order; otherwise keep the reversed order and apply
the bipolar (`2x - 1`) or INT2/INT32 sign correction
(`-(x & mask) + (x & ~mask)`, `mask = 2 ** (dtype.bitwidth() - 1)`). -/
def orientChunks (dtype : DataType) (rtlsim : Bool) (raw : List Nat) : List Int :=
  if rtlsim = false then raw.reverse.map Int.ofNat
  else if dtype = DataType.BIPOLAR then raw.map (fun x => 2 * Int.ofNat x - 1)
  else if dtype = DataType.INT 2 ∨ dtype = DataType.INT 32 then
    let mask : Int := 2 ^ (dtype.bitwidth - 1)
    raw.map (fun x => -(pyAnd (Int.ofNat x) mask) + pyAnd (Int.ofNat x) (pyNot mask))
  else raw.map Int.ofNat

/-- The Row Decoder: the body of the decoder's outer loop for one packed
word.  Parse the hex word, render it as a binary string of at least
`packedBits` digits (`bin(...)[2:].zfill(packedBits)` — note a value wider
than `packedBits` keeps all its digits), reverse it so index 0 is the least
significant bit, cut `inner_dim_elems` chunks of `targetBits` bits, read each
chunk MSB-first, then orient/correct per `orientChunks`. -/
def unpack_word (word : String) (dtype : DataType) (inner_dim_elems packedBits targetBits : Nat)
    (rtlsim : Bool) : Except UnpackError (List Int) :=
  match parseHexWord word with
  | .error e => .error e
  | .ok n =>
    let ar_elem_bin := (zfill (pyBin n) packedBits).reverse
    match mapOrFail (fun i => chunkInt ar_elem_bin (i * targetBits) ((i + 1) * targetBits))
        (List.range inner_dim_elems) with
    | .error e => .error e
    | .ok raw => .ok (orientChunks dtype rtlsim raw)

/-- The decoder's outer loop: pop one word from the front of the sequence per
outer position (`data.pop(0)`; `IndexError` on an empty sequence), decode it,
and return the decoded rows together with the remaining (unconsumed) words. -/
def unpackRows (dtype : DataType) (inner_dim_elems packedBits targetBits : Nat) (rtlsim : Bool) :
    Nat → List String → Except UnpackError (List (List Int) × List String)
  | 0, data => .ok ([], data)
  | _ + 1, [] => .error .missingWord
  | outer + 1, w :: rest =>
    match unpack_word w dtype inner_dim_elems packedBits targetBits rtlsim with
    | .error e => .error e
    | .ok row =>
      match unpackRows dtype inner_dim_elems packedBits targetBits rtlsim outer rest with
      | .error e => .error e
      | .ok (rows, rem) => .ok (row :: rows, rem)

/-- `unpack_innermost_dim_from_hex_string(data, dtype, shape, packedBits,
targetBits, rtlsim)` of the source.  `outer_dim_elems` is the product of all
shape extents but the last, `inner_dim_elems` the last extent (`shape[-1]`,
an `IndexError` on an empty shape).  The outer loop consumes one word per
outer position, destructively, so the model returns the decoded rows paired
with the remaining word sequence.  The final
`np.asarray(array, dtype=np.float32).reshape(shape)` stores the decoded
integers in the float container (exact for the magnitudes the claims
exercise) and regroups the `outer × inner` rows to the requested shape
without reordering; the model keeps the row-major rows. -/
def unpack_innermost_dim_from_hex_string (data : List String) (dtype : DataType)
    (shape : List Nat) (packedBits targetBits : Nat) (rtlsim : Bool) :
    Except UnpackError (List (List ℚ) × List String) :=
  let outer_dim_elems := shape.dropLast.foldl (fun a b => a * b) 1
  match shape.getLast? with
  | none => .error .emptyShape
  | some inner_dim_elems =>
    match unpackRows dtype inner_dim_elems packedBits targetBits rtlsim outer_dim_elems data with
    | .error e => .error e
    | .ok (rows, rem) => .ok (rows.map (fun row => row.map (fun z : Int => (z : ℚ))), rem)

/-! ### Helper lemmas: the encoder loop -/

theorem encodeVals_ok (dtype : DataType) (l : List ℚ) (h : ∀ x ∈ l, dtype.allowed x) :
    encodeVals dtype l = .ok (l.map (elemBits dtype)) := by
  induction l with
  | nil => rfl
  | cons q rest ih =>
    have hq : dtype.allowed q := h q (List.mem_cons_self q rest)
    have hr := ih (fun x hx => h x (List.mem_cons_of_mem q hx))
    simp [encodeVals, hq, hr]

/-- A legal bipolar sample maps to a legal binary sample under `(x+1)/2`. -/
theorem bipolar_transform_allowed (q : ℚ) (h : DataType.BIPOLAR.allowed q) :
    DataType.BINARY.allowed ((q + 1) / 2) := by
  rcases h with h | h <;> subst h <;> [left; right] <;> norm_num

/-- For the unsigned integer domains the encoded bit field is the sample
itself, and it fits in the domain's bit width. -/
theorem elemBits_unsigned (dtype : DataType)
    (hdt : dtype = DataType.BINARY ∨ ∃ w, dtype = DataType.UINT w)
    (q : ℚ) (hq : dtype.allowed q) :
    ((elemBits dtype q : Int) : ℚ) = q ∧ elemBits dtype q < 2 ^ dtype.bitwidth := by
  have hden : q.den = 1 ∧ 0 ≤ q.num ∧ q.num < 2 ^ dtype.bitwidth := by
    rcases hdt with h | ⟨w, h⟩ <;> subst h
    · rcases hq with h | h <;> subst h <;> refine ⟨rfl, by norm_num, ?_⟩ <;> simp [DataType.bitwidth]
    · exact hq
  have hsg : dtype.signed = false := by
    rcases hdt with h | ⟨w, h⟩ <;> subst h <;> rfl
  have htr : pyTrunc q = q.num := by
    rw [pyTrunc, hden.1]
    exact_mod_cast Int.tdiv_one q.num
  constructor
  · rw [elemBits, hsg]
    simp only [Bool.false_eq_true, if_false, htr]
    rw [Int.toNat_of_nonneg hden.2.1]
    exact_mod_cast (Rat.den_eq_one_iff q).mp hden.1
  · rw [elemBits, hsg]
    simp only [Bool.false_eq_true, if_false, htr]
    have := hden.2.2
    have h2 : ((2 ^ dtype.bitwidth : Nat) : Int) = 2 ^ dtype.bitwidth := by push_cast; ring
    omega

/-- The packed word value of a list of `bw`-bit fields is below
`2 ^ (count * bw)`. -/
theorem encFold_lt (bw : Nat) (fields : List Nat) (h : ∀ x ∈ fields, x < 2 ^ bw) :
    fields.foldl (fun a x => a * 2 ^ bw + x) 0 < 2 ^ (fields.length * bw) := by
  induction fields using List.reverseRecOn with
  | nil => simp
  | append_singleton l x ih =>
    rw [List.foldl_append]
    have hx : x < 2 ^ bw := h x (by simp)
    have hl := ih (fun y hy => h y (by simp [hy]))
    simp only [List.foldl_cons, List.foldl_nil, List.length_append, List.length_singleton]
    calc List.foldl (fun a x => a * 2 ^ bw + x) 0 l * 2 ^ bw + x
        ≤ (2 ^ (l.length * bw) - 1) * 2 ^ bw + x := by
          have : List.foldl (fun a x => a * 2 ^ bw + x) 0 l ≤ 2 ^ (l.length * bw) - 1 := by omega
          exact Nat.add_le_add_right (Nat.mul_le_mul_right _ this) x
      _ < 2 ^ ((l.length + 1) * bw) := by
          have hpow : 2 ^ (l.length * bw) * 2 ^ bw = 2 ^ ((l.length + 1) * bw) := by
            rw [← pow_add]; ring_nf
          have hsub : (2 ^ (l.length * bw) - 1) * 2 ^ bw
              = 2 ^ (l.length * bw) * 2 ^ bw - 2 ^ bw := by
            rw [Nat.sub_mul, one_mul]
          have hle : 2 ^ bw ≤ 2 ^ (l.length * bw) * 2 ^ bw :=
            Nat.le_mul_of_pos_left _ (Nat.pos_pow_of_pos _ (by norm_num))
          omega

/-! ### Helper lemmas: chunks of a packed word value -/

/-- Reading the `i`-th `bw`-bit chunk (LSB side first) of the packed word
value recovers the fields in reverse sample order. -/
theorem encFold_chunks (bw : Nat) (l : List Nat) (h : ∀ x ∈ l, x < 2 ^ bw) :
    (List.range l.length).map
      (fun i => l.foldl (fun a x => a * 2 ^ bw + x) 0 / 2 ^ (i * bw) % 2 ^ bw)
      = l.reverse := by
  induction l using List.reverseRecOn with
  | nil => simp
  | append_singleton l x ih =>
    have hx : x < 2 ^ bw := h x (by simp)
    have hl := ih (fun y hy => h y (by simp [hy]))
    have hfold : (l ++ [x]).foldl (fun a y => a * 2 ^ bw + y) 0
        = l.foldl (fun a y => a * 2 ^ bw + y) 0 * 2 ^ bw + x := by
      rw [List.foldl_append]; rfl
    have hpow : (0 : Nat) < 2 ^ bw := Nat.pos_pow_of_pos _ (by norm_num)
    rw [List.length_append]
    simp only [List.length_cons, List.length_nil, Nat.add_zero]
    rw [List.range_succ_eq_map, List.map_cons, List.map_map, hfold]
    have h0 : (l.foldl (fun a y => a * 2 ^ bw + y) 0 * 2 ^ bw + x) / 2 ^ (0 * bw) % 2 ^ bw
        = x := by
      rw [Nat.zero_mul, pow_zero, Nat.div_one, Nat.mul_comm, Nat.mul_add_mod,
        Nat.mod_eq_of_lt hx]
    rw [h0]
    have htail : ∀ i ∈ List.range l.length,
        ((fun i => (l.foldl (fun a y => a * 2 ^ bw + y) 0 * 2 ^ bw + x) / 2 ^ (i * bw) % 2 ^ bw)
          ∘ Nat.succ) i
        = l.foldl (fun a y => a * 2 ^ bw + y) 0 / 2 ^ (i * bw) % 2 ^ bw := by
      intro i _
      simp only [Function.comp_apply]
      have hsp : 2 ^ (Nat.succ i * bw) = 2 ^ bw * 2 ^ (i * bw) := by
        rw [Nat.succ_mul, pow_add]; ring
      rw [hsp, ← Nat.div_div_eq_div_mul, Nat.mul_comm (l.foldl _ 0) (2 ^ bw),
        Nat.mul_add_div hpow, Nat.div_eq_of_lt hx, Nat.add_zero]
    rw [List.map_congr_left htail, hl, List.reverse_append]
    rfl

/-! ### Helper lemmas: hex rendering and parsing -/

theorem natToHex_length (d : Nat) : ∀ n, (natToHex n d).length = d := by
  induction d with
  | zero => intro n; rfl
  | succ d ih => intro n; simp [natToHex, ih]

theorem hexDigit_mem (m : Nat) : hexDigit m ∈ hexAlphabet := by
  by_cases h : m < 16
  · interval_cases m <;> decide
  · have hlen : hexAlphabet.length ≤ m := by
      have : hexAlphabet.length = 16 := by decide
      omega
    rw [hexDigit, List.getD_eq_default _ _ hlen]
    decide

theorem natToHex_mem (d : Nat) : ∀ n, ∀ c ∈ natToHex n d, c ∈ hexAlphabet := by
  induction d with
  | zero => intro n c hc; simp [natToHex] at hc
  | succ d ih =>
    intro n c hc
    simp only [natToHex, List.mem_append, List.mem_singleton] at hc
    rcases hc with hc | hc
    · exact ih _ c hc
    · rw [hc]; exact hexDigit_mem _

theorem hexCharVal_hexDigit : ∀ m, m < 16 → hexCharVal (hexDigit m) = some m := by decide

theorem hexAcc_append (xs : List Char) : ∀ a ys, hexAcc a (xs ++ ys)
    = match hexAcc a xs with
      | some m => hexAcc m ys
      | none => none := by
  induction xs with
  | nil => intro a ys; rfl
  | cons c cs ih =>
    intro a ys
    simp only [List.cons_append, hexAcc]
    cases hexCharVal c with
    | none => rfl
    | some v => exact ih _ ys

theorem hexAcc_natToHex (d : Nat) : ∀ a n, hexAcc a (natToHex n d)
    = some (a * 16 ^ d + n % 16 ^ d) := by
  induction d with
  | zero => intro a n; simp [natToHex, hexAcc, Nat.mod_one]
  | succ d ih =>
    intro a n
    rw [natToHex, hexAcc_append, ih]
    have hv : hexCharVal (hexDigit (n % 16)) = some (n % 16) :=
      hexCharVal_hexDigit _ (Nat.mod_lt _ (by norm_num))
    simp only [hexAcc, hv]
    congr 1
    have hmod : n % (16 * 16 ^ d) = n % 16 + 16 * (n / 16 % 16 ^ d) := Nat.mod_mul
    have hpow : (16 : Nat) ^ (d + 1) = 16 * 16 ^ d := by rw [pow_succ]; ring
    rw [hpow]
    calc 16 * (a * 16 ^ d + n / 16 % 16 ^ d) + n % 16
        = a * (16 * 16 ^ d) + (n % 16 + 16 * (n / 16 % 16 ^ d)) := by ring
      _ = a * (16 * 16 ^ d) + n % (16 * 16 ^ d) := by rw [hmod]

theorem splitOnChar_not_mem (c : Char) (l : List Char) (h : c ∉ l) :
    splitOnChar c l = [l] := by
  induction l with
  | nil => rfl
  | cons a rest ih =>
    have hac : ¬a = c := fun hac => h (by rw [hac]; exact List.mem_cons_self c rest)
    have hr := ih (fun hm => h (List.mem_cons_of_mem a hm))
    simp [splitOnChar, hr, hac]

theorem splitOnChar_prefix_0x (ds : List Char) (h : 'x' ∉ ds) :
    splitOnChar 'x' ('0' :: 'x' :: ds) = [['0'], ds] := by
  simp [splitOnChar, splitOnChar_not_mem 'x' ds h]

/-- Parsing the rendered word recovers the packed value. -/
theorem parseHexWord_render (n d : Nat) (hd : 0 < d) (hn : n < 16 ^ d) :
    parseHexWord ("0x" ++ String.mk (natToHex n d)) = .ok n := by
  have hx : 'x' ∉ natToHex n d := by
    intro hmem
    have := natToHex_mem d n 'x' hmem
    revert this
    decide
  have hdata : ("0x" ++ String.mk (natToHex n d)).data = '0' :: 'x' :: natToHex n d := by
    rw [String.data_append]; rfl
  rw [parseHexWord, hdata, splitOnChar_prefix_0x _ hx]
  have hne : (natToHex n d).isEmpty = false := by
    cases hl : natToHex n d with
    | nil =>
      have := natToHex_length d n
      rw [hl] at this
      simp at this
      omega
    | cons c cs => rfl
  simp only [parseHexDigits, hne, Bool.false_eq_true, if_false, hexAcc_natToHex]
  rw [Nat.zero_mul, Nat.zero_add, Nat.mod_eq_of_lt hn]

/-! ### Helper lemmas: the decoder's binary digit list -/

theorem natBitsAux_zero_val (f : Nat) : natBitsAux f 0 = [] := by
  cases f <;> simp [natBitsAux]

theorem natBitsAux_fuel (n : Nat) : ∀ f g, n ≤ f → n ≤ g → natBitsAux f n = natBitsAux g n := by
  induction n using Nat.strong_induction_on with
  | _ n ih =>
    intro f g hf hg
    cases n with
    | zero => rw [natBitsAux_zero_val, natBitsAux_zero_val]
    | succ m =>
      cases f with
      | zero => omega
      | succ f2 =>
        cases g with
        | zero => omega
        | succ g2 =>
          simp only [natBitsAux, Nat.succ_ne_zero, if_false]
          have hlt : (m + 1) / 2 < m + 1 := Nat.div_lt_self (Nat.succ_pos m) (by norm_num)
          rw [ih ((m + 1) / 2) hlt f2 g2 (by omega) (by omega)]

theorem recBits_succ (n : Nat) (h : n ≠ 0) : recBits n = recBits (n / 2) ++ [n % 2] := by
  cases n with
  | zero => exact absurd rfl h
  | succ m =>
    show natBitsAux (m + 1) (m + 1) = natBitsAux ((m + 1) / 2) ((m + 1) / 2) ++ [(m + 1) % 2]
    simp only [natBitsAux, Nat.succ_ne_zero, if_false]
    rw [natBitsAux_fuel ((m + 1) / 2) m ((m + 1) / 2) (by omega) (by omega)]

theorem recBits_reverse_getD (n : Nat) : ∀ j, (recBits n).reverse.getD j 0 = n / 2 ^ j % 2 := by
  induction n using Nat.strong_induction_on with
  | _ n ih =>
    intro j
    by_cases h : n = 0
    · subst h
      show ((natBitsAux 0 0).reverse).getD j 0 = 0 / 2 ^ j % 2
      simp [natBitsAux]
    · rw [recBits_succ n h, List.reverse_append]
      cases j with
      | zero => simp
      | succ j2 =>
        have hlt : n / 2 < n := Nat.div_lt_self (Nat.pos_of_ne_zero h) (by norm_num)
        simp only [List.reverse_cons, List.reverse_nil, List.nil_append, List.cons_append,
          List.getD_cons_succ]
        rw [ih (n / 2) hlt j2, Nat.div_div_eq_div_mul]
        congr 2
        rw [pow_succ']

theorem lt_two_pow_recBits_length (n : Nat) : n < 2 ^ (recBits n).length := by
  induction n using Nat.strong_induction_on with
  | _ n ih =>
    by_cases h : n = 0
    · subst h
      show 0 < 2 ^ (natBitsAux 0 0).length
      simp [natBitsAux]
    · rw [recBits_succ n h]
      have hlt : n / 2 < n := Nat.div_lt_self (Nat.pos_of_ne_zero h) (by norm_num)
      have hih := ih (n / 2) hlt
      have hlen : (recBits (n / 2) ++ [n % 2]).length = (recBits (n / 2)).length + 1 := by
        simp
      rw [hlen, pow_succ]
      omega

theorem pyBin_reverse_getD (n : Nat) (j : Nat) :
    (pyBin n).reverse.getD j 0 = n / 2 ^ j % 2 := by
  rw [pyBin]
  by_cases h : n = 0
  · subst h
    simp only [if_pos rfl]
    cases j <;> simp
  · rw [if_neg h]
    exact recBits_reverse_getD n j

theorem lt_two_pow_pyBin_length (n : Nat) : n < 2 ^ (pyBin n).length := by
  rw [pyBin]
  by_cases h : n = 0
  · subst h; simp
  · rw [if_neg h]; exact lt_two_pow_recBits_length n

theorem zfill_length (l : List Nat) (w : Nat) : (zfill l w).length = max w l.length := by
  simp only [zfill, List.length_append, List.length_replicate]
  omega

theorem zfill_reverse_getD (l : List Nat) (w j : Nat) :
    (zfill l w).reverse.getD j 0 = l.reverse.getD j 0 := by
  rw [zfill, List.reverse_append, List.reverse_replicate]
  by_cases h : j < l.length
  · exact List.getD_append _ _ _ _ (by simpa using h)
  · have hge : l.reverse.length ≤ j := by simpa using Nat.le_of_not_lt h
    rw [List.getD_append_right _ _ _ _ hge, List.getD_eq_default _ _ hge]
    rcases Nat.lt_or_ge (j - l.reverse.length) (w - l.length) with hlt | hge2
    · have hlt2 : j - l.length < w - l.length := by simpa using hlt
      rw [List.getD]
      simp [List.getElem?_replicate, hlt2]
    · exact List.getD_eq_default _ _ (by simpa using hge2)

/-- The decoder's reversed, zero-filled digit list reads out the bits of the
parsed value: position `j` holds bit `j` (also beyond the list, where the
default 0 agrees with the vanishing high bits). -/
theorem bits_getD (n pb j : Nat) :
    ((zfill (pyBin n) pb).reverse).getD j 0 = n / 2 ^ j % 2 := by
  rw [zfill_reverse_getD, pyBin_reverse_getD]

theorem bits_length (n pb : Nat) :
    ((zfill (pyBin n) pb).reverse).length = max pb (pyBin n).length := by
  rw [List.length_reverse, zfill_length]

/-- Reading a bit slice MSB-first (`elem.reverse(); int(..., 2)`) recovers
the corresponding div/mod window of the parsed value. -/
theorem chunk_fold_val (w : Nat) : ∀ lo n,
    ((List.range w).map (fun j => n / 2 ^ (lo + j) % 2)).reverse.foldl
      (fun a b => 2 * a + b) 0 = n / 2 ^ lo % 2 ^ w := by
  induction w with
  | zero => intro lo n; simp [Nat.mod_one]
  | succ w ih =>
    intro lo n
    rw [List.range_succ_eq_map, List.map_cons, List.map_map]
    have htail : ∀ j ∈ List.range w,
        ((fun j => n / 2 ^ (lo + j) % 2) ∘ Nat.succ) j
          = n / 2 ^ (lo + 1 + j) % 2 := by
      intro j _
      simp only [Function.comp_apply]
      have hj : lo + Nat.succ j = lo + 1 + j := by omega
      rw [hj]
    rw [List.map_congr_left htail]
    rw [List.reverse_cons, List.foldl_append]
    rw [ih (lo + 1) n]
    simp only [List.foldl_cons, List.foldl_nil, Nat.add_zero]
    have hdd : n / 2 ^ (lo + 1) = n / 2 ^ lo / 2 := by
      rw [Nat.div_div_eq_div_mul, ← pow_succ]
    have hmod : n / 2 ^ lo % (2 * 2 ^ w)
        = n / 2 ^ lo % 2 + 2 * (n / 2 ^ lo / 2 % 2 ^ w) := Nat.mod_mul
    have hpow : (2 : Nat) ^ (w + 1) = 2 * 2 ^ w := by rw [pow_succ]; ring
    rw [hdd, hpow, hmod]
    ring

/-- A full-width chunk of the reversed, zero-filled digit list: positions
`[lo, lo+w)` read MSB-first give `n / 2^lo % 2^w`. -/
theorem chunkInt_full (n pb lo w : Nat) (hw : 0 < w) (hle : lo + w ≤ pb) :
    chunkInt ((zfill (pyBin n) pb).reverse) lo (lo + w) = .ok (n / 2 ^ lo % 2 ^ w) := by
  have hblen : lo + w ≤ ((zfill (pyBin n) pb).reverse).length := by
    rw [bits_length]
    exact le_trans hle (le_max_left _ _)
  have hw2 : lo + w - lo = w := by omega
  have helem : (((zfill (pyBin n) pb).reverse).drop lo).take (lo + w - lo)
      = (List.range w).map (fun j => n / 2 ^ (lo + j) % 2) := by
    rw [hw2]
    apply List.ext_getElem?
    intro i
    rw [List.getElem?_take, List.getElem?_drop, List.getElem?_map]
    by_cases hi : i < w
    · rw [if_pos hi, List.getElem?_range hi]
      have hidx : lo + i < ((zfill (pyBin n) pb).reverse).length := by omega
      rw [List.getElem?_eq_getElem hidx]
      have := bits_getD n pb (lo + i)
      rw [List.getD_eq_getElem _ _ hidx] at this
      rw [this]
      rfl
    · rw [if_neg hi]
      have : (List.range w)[i]? = none := by
        rw [List.getElem?_eq_none_iff]
        simpa using Nat.le_of_not_lt hi
      rw [this]
      rfl
  rw [chunkInt]
  simp only [helem]
  have hne : ((List.range w).map (fun j => n / 2 ^ (lo + j) % 2)).isEmpty = false := by
    cases w with
    | zero => omega
    | succ w2 => rw [List.range_succ_eq_map]; rfl
  rw [hne]
  simp only [Bool.false_eq_true, if_false, chunk_fold_val]

/-! ### Helper lemmas: `mapOrFail` -/

theorem mapOrFail_ok_of_forall {ε α β : Type} (f : α → Except ε β) (g : α → β) :
    ∀ l : List α, (∀ x ∈ l, f x = .ok (g x)) → mapOrFail f l = .ok (l.map g) := by
  intro l
  induction l with
  | nil => intro _; rfl
  | cons a rest ih =>
    intro h
    have ha : f a = .ok (g a) := h a (List.mem_cons_self a rest)
    have hr := ih (fun x hx => h x (List.mem_cons_of_mem a hx))
    simp [mapOrFail, ha, hr]

theorem mapOrFail_ok_forall₂ {ε α β : Type} (f : α → Except ε β) :
    ∀ (l : List α) (ys : List β), mapOrFail f l = .ok ys →
      List.Forall₂ (fun x y => f x = .ok y) l ys := by
  intro l
  induction l with
  | nil =>
    intro ys h
    simp only [mapOrFail] at h
    cases h
    exact List.Forall₂.nil
  | cons a rest ih =>
    intro ys h
    simp only [mapOrFail] at h
    cases hfa : f a with
    | error e => rw [hfa] at h; cases h
    | ok b =>
      rw [hfa] at h
      cases hrest : mapOrFail f rest with
      | error e => rw [hrest] at h; cases h
      | ok bs =>
        rw [hrest] at h
        cases h
        exact List.Forall₂.cons hfa (ih bs hrest)

theorem forall₂_getElem?_right {α β : Type} {R : α → β → Prop} :
    ∀ {l : List α} {ys : List β}, List.Forall₂ R l ys →
      ∀ (i : Nat) (y : β), ys[i]? = some y → ∃ x, l[i]? = some x ∧ R x y := by
  intro l ys h
  induction h with
  | nil => intro i y hy; simp at hy
  | cons hr _ ih =>
    intro i y hy
    cases i with
    | zero =>
      simp only [List.getElem?_cons_zero] at hy ⊢
      cases hy
      exact ⟨_, rfl, hr⟩
    | succ i2 =>
      simp only [List.getElem?_cons_succ] at hy ⊢
      exact ih i2 y hy

/-- The encoder's bipolar rewrite, as a definitional identity: encoding a
vector in the bipolar domain is encoding the `(x+1)/2`-transformed vector in
the 1-bit `BINARY` domain. -/
theorem array2hexstring_bipolar_eq (v : List ℚ) (p : Nat) :
    array2hexstring v DataType.BIPOLAR p
      = array2hexstring (v.map (fun x => (x + 1) / 2)) DataType.BINARY p := rfl

/-- The overflow branch for a non-bipolar domain: a legal vector whose
natural length exceeds both 4 and the requested padding makes the encoder
raise. -/
theorem array2hexstring_overflow_plain (dtype : DataType) (v : List ℚ) (padTo : Nat)
    (hb : dtype ≠ DataType.BIPOLAR)
    (hleg : ∀ x ∈ v, dtype.allowed x)
    (hnat : 4 < v.length * dtype.bitwidth)
    (hlt : padTo < v.length * dtype.bitwidth) :
    array2hexstring v dtype padTo = .error .packingOverflow := by
  simp only [array2hexstring, if_neg hb, encodeVals_ok dtype v hleg]
  have hnot : ¬(if padTo < 4 then 4 else padTo) ≥ v.length * dtype.bitwidth := by
    by_cases hp : padTo < 4 <;> simp [hp] <;> omega
  rw [if_neg hnot]

/-! ### Claim theorems -/

/-- C5: for every bipolar-domain sample vector the Row Encoder first maps
each sample `x` to `(x+1)/2` and then encodes the result as a 1-bit unsigned
(`BINARY`) vector; in particular `encode([-1,1,1,-1], bipolar, 4) = "0x6"`. -/
theorem C5_bipolar_transform :
    (∀ (v : List ℚ) (p : Nat),
      array2hexstring v DataType.BIPOLAR p
        = array2hexstring (v.map (fun x => (x + 1) / 2)) DataType.BINARY p) ∧
    array2hexstring [-1, 1, 1, -1] DataType.BIPOLAR 4 = .ok "0x6" := by
  constructor
  · intro v p
    rfl
  · with_unfolding_all decide

/-- C6: with any `pad_to_nbits` below 4 the Row Encoder behaves exactly as
with `pad_to_nbits = 4` (the source coerces the padding up front), for every
domain and sample vector, successes and failures alike. -/
theorem C6_padding_floor (v : List ℚ) (dtype : DataType) (p : Nat) (h : p < 4) :
    array2hexstring v dtype p = array2hexstring v dtype 4 := by
  unfold array2hexstring
  rw [if_pos h, if_neg (lt_irrefl 4)]

theorem C6_padding_floor_witness :
    2 < 4 ∧ array2hexstring [1] DataType.BINARY 2 = array2hexstring [1] DataType.BINARY 4 :=
  ⟨by norm_num, C6_padding_floor [1] DataType.BINARY 2 (by norm_num)⟩

/-- C2 (amended): encoding a legal sample vector with `padTo` below the
natural length `len(v) * bitwidth` fails with `PackingOverflow` — provided
the natural length exceeds 4; otherwise the padding floor lifts `padTo` to 4
and the row fits (see `C2_counterexample`). -/
theorem C2_overflow (dtype : DataType) (v : List ℚ) (padTo : Nat)
    (hleg : ∀ x ∈ v, dtype.allowed x)
    (hnat : 4 < v.length * dtype.bitwidth)
    (hlt : padTo < v.length * dtype.bitwidth) :
    array2hexstring v dtype padTo = .error .packingOverflow := by
  by_cases hb : dtype = DataType.BIPOLAR
  · subst hb
    rw [array2hexstring_bipolar_eq]
    have hleg2 : ∀ y ∈ v.map (fun x => (x + 1) / 2), DataType.BINARY.allowed y := by
      intro y hy
      rcases List.mem_map.mp hy with ⟨x, hx, rfl⟩
      exact bipolar_transform_allowed x (hleg x hx)
    refine array2hexstring_overflow_plain DataType.BINARY _ padTo (by decide) hleg2 ?_ ?_
    · simpa [DataType.bitwidth] using hnat
    · simpa [DataType.bitwidth] using hlt
  · exact array2hexstring_overflow_plain dtype v padTo hb hleg hnat hlt

theorem C2_overflow_witness :
    (∀ x ∈ ([1, 1, 0, 1, 1] : List ℚ), DataType.BINARY.allowed x) ∧
    4 < ([1, 1, 0, 1, 1] : List ℚ).length * DataType.BINARY.bitwidth ∧
    array2hexstring [1, 1, 0, 1, 1] DataType.BINARY 4 = .error .packingOverflow :=
  ⟨by with_unfolding_all decide, by decide,
    C2_overflow DataType.BINARY [1, 1, 0, 1, 1] 4 (by with_unfolding_all decide)
      (by decide) (by decide)⟩

/-- C2 is false as stated: `padTo = 3` is strictly below the natural length
`4 * 1` of this legal binary vector, yet the encoder succeeds (the padding
floor lifts 3 to 4 before the overflow check) and returns `"0xe"`. -/
theorem C2_counterexample :
    (∀ x ∈ ([1, 1, 1, 0] : List ℚ), DataType.BINARY.allowed x) ∧
    3 < ([1, 1, 1, 0] : List ℚ).length * DataType.BINARY.bitwidth ∧
    array2hexstring [1, 1, 1, 0] DataType.BINARY 3 = .ok "0xe" := by
  refine ⟨?_, ?_, ?_⟩ <;> with_unfolding_all decide

/-- C9 (amended): every string the Row Encoder returns is the prefix `0x`
followed by lowercase hex digits, whose count is exactly `paddedWidth / 4`
where `paddedWidth = max(padTo, 4)` (success forces `paddedWidth` to be a
multiple of 4).  The digit count is therefore odd whenever `paddedWidth / 4`
is odd — e.g. 1 digit at `padTo = 4` — not always even as claimed (see
`C9_counterexample`). -/
theorem C9_format (dtype : DataType) (v : List ℚ) (p : Nat) (s : String)
    (h : array2hexstring v dtype p = .ok s) :
    ∃ ds : List Char, s = "0x" ++ String.mk ds ∧
      ds.length = (if p < 4 then 4 else p) / 4 ∧
      ∀ c ∈ ds, c ∈ hexAlphabet := by
  simp only [array2hexstring] at h
  cases henc : encodeVals (if dtype = DataType.BIPOLAR then DataType.BINARY else dtype)
      (if dtype = DataType.BIPOLAR then v.map (fun x => (x + 1) / 2) else v) with
  | error e => simp only [henc] at h; cases h
  | ok fields =>
    simp only [henc] at h
    by_cases hge : (if p < 4 then 4 else p) ≥
        (if dtype = DataType.BIPOLAR then v.map (fun x => (x + 1) / 2) else v).length *
          (if dtype = DataType.BIPOLAR then DataType.BINARY else dtype).bitwidth
    · rw [if_pos hge] at h
      by_cases h4 : (if p < 4 then 4 else p) % 4 = 0
      · rw [if_pos h4] at h
        injection h with hs
        exact ⟨_, hs.symm, natToHex_length _ _, natToHex_mem _ _⟩
      · rw [if_neg h4] at h
        cases h
    · rw [if_neg hge] at h
      cases h

/-- C9 is false as stated: at `padTo = 4` this legal binary vector encodes to
`"0xe"`, which has a single — odd — hex digit. -/
theorem C9_counterexample :
    (∀ x ∈ ([1, 1, 1, 0] : List ℚ), DataType.BINARY.allowed x) ∧
    array2hexstring [1, 1, 1, 0] DataType.BINARY 4 = .ok "0xe" ∧
    ("0xe".length - 2) % 2 = 1 := by
  refine ⟨?_, ?_, ?_⟩ <;> with_unfolding_all decide

theorem C9_format_witness :
    array2hexstring [1, 1, 1, 0] DataType.BINARY 8 = .ok "0x0e" ∧
    (∃ ds : List Char, "0x0e" = "0x" ++ String.mk ds ∧
      ds.length = (if 8 < 4 then 4 else 8) / 4 ∧
      ∀ c ∈ ds, c ∈ hexAlphabet) :=
  ⟨by with_unfolding_all decide,
    C9_format DataType.BINARY [1, 1, 1, 0] 8 "0x0e" (by with_unfolding_all decide)⟩

/-- C3 (amended): a hex word parses and decodes successfully regardless of
its digit count — a word whose digits imply fewer than `packedBits` bits is
left-zero-extended by `zfill`, not rejected.  (Parse failures occur only for
strings with no `x` or with invalid digit runs; chunking needs
`targetBits > 0` and `innerCount * targetBits ≤ packedBits` to produce
non-empty slices.) -/
theorem C3_zero_extension (word : String) (dtype : DataType)
    (inner pb tb : Nat) (rtl : Bool) (n : Nat)
    (hp : parseHexWord word = .ok n) (htb : 0 < tb) (hle : inner * tb ≤ pb) :
    ∃ out, unpack_word word dtype inner pb tb rtl = .ok out := by
  have hchunks : mapOrFail
      (fun i => chunkInt ((zfill (pyBin n) pb).reverse) (i * tb) ((i + 1) * tb))
      (List.range inner)
      = .ok ((List.range inner).map (fun i => n / 2 ^ (i * tb) % 2 ^ tb)) := by
    apply mapOrFail_ok_of_forall
    intro i hi
    have hi2 : i < inner := List.mem_range.mp hi
    have hform : (i + 1) * tb = i * tb + tb := by ring
    rw [hform]
    apply chunkInt_full n pb (i * tb) tb htb
    calc i * tb + tb = (i + 1) * tb := by ring
      _ ≤ inner * tb := Nat.mul_le_mul_right tb hi2
      _ ≤ pb := hle
  refine ⟨orientChunks dtype rtl ((List.range inner).map (fun i => n / 2 ^ (i * tb) % 2 ^ tb)), ?_⟩
  simp only [unpack_word, hp, hchunks]

theorem C3_zero_extension_witness :
    parseHexWord "0x6" = .ok 6 ∧
    ∃ out, unpack_word "0x6" DataType.BINARY 8 8 1 false = .ok out :=
  ⟨by with_unfolding_all decide,
    C3_zero_extension "0x6" DataType.BINARY 8 8 1 false 6
      (by with_unfolding_all decide) (by decide) (by decide)⟩

/-- C3 is false as stated: `"0x6"` has a single hex digit, implying 4 bits,
fewer than `packedBits = 8`; yet the Row Decoder does not fail — it
zero-extends and returns element values. -/
theorem C3_counterexample :
    ("0x6".length - 2) * 4 < 8 ∧
    unpack_word "0x6" DataType.BINARY 8 8 1 false = .ok [0, 0, 0, 0, 0, 1, 1, 0] := by
  refine ⟨?_, ?_⟩ <;> with_unfolding_all decide

/-- C4: in `rtlsim` (rtlCompatible) decode mode, a signed integer domain of
width W receives the correction `-(v & mask) + (v & ~mask)` with
`mask = 2^(W-1)` applied to every raw unsigned chunk value exactly when
W is 2 or 32 (the source compares against the `INT2`/`INT32` members);
signed domains of every other width are passed through uncorrected. -/
theorem C4_sign_correction (w inner pb tb : Nat) (word : String) (n : Nat) (raw : List Nat)
    (hp : parseHexWord word = .ok n)
    (hr : mapOrFail
      (fun i => chunkInt ((zfill (pyBin n) pb).reverse) (i * tb) ((i + 1) * tb))
      (List.range inner) = .ok raw) :
    unpack_word word (DataType.INT w) inner pb tb true =
      .ok (if w = 2 ∨ w = 32
        then raw.map (fun v =>
          -(pyAnd (Int.ofNat v) (2 ^ (w - 1))) + pyAnd (Int.ofNat v) (pyNot (2 ^ (w - 1))))
        else raw.map Int.ofNat) := by
  simp only [unpack_word, hp, hr, orientChunks]
  rw [if_neg (by simp : ¬((true : Bool) = false))]
  rw [if_neg (by simp : ¬(DataType.INT w = DataType.BIPOLAR))]
  by_cases hw : w = 2 ∨ w = 32
  · have hc : DataType.INT w = DataType.INT 2 ∨ DataType.INT w = DataType.INT 32 := by
      rcases hw with h | h <;> [left; right] <;> rw [h]
    rw [if_pos hc, if_pos hw]
    simp [DataType.bitwidth]
  · have hc : ¬(DataType.INT w = DataType.INT 2 ∨ DataType.INT w = DataType.INT 32) := by
      simpa using hw
    rw [if_neg hc, if_neg hw]

theorem C4_sign_correction_witness :
    parseHexWord "0x3" = .ok 3 ∧
    unpack_word "0x3" (DataType.INT 2) 1 4 2 true = .ok [-1] := by
  constructor
  · with_unfolding_all decide
  · have h := C4_sign_correction 2 1 4 2 "0x3" 3 [3]
      (by with_unfolding_all decide) (by with_unfolding_all decide)
    rw [h]
    with_unfolding_all decide

/-- The success branch of the encoder for a non-bipolar domain: a legal
vector fitting into a nibble-aligned padding renders to the padded hex
string. -/
theorem array2hexstring_ok_plain (dtype : DataType) (v : List ℚ) (padTo : Nat)
    (hb : dtype ≠ DataType.BIPOLAR)
    (hleg : ∀ x ∈ v, dtype.allowed x)
    (hge : v.length * dtype.bitwidth ≤ (if padTo < 4 then 4 else padTo))
    (h4 : (if padTo < 4 then 4 else padTo) % 4 = 0) :
    array2hexstring v dtype padTo = .ok ("0x" ++ String.mk (natToHex
      ((v.map (elemBits dtype)).foldl (fun a x => a * 2 ^ dtype.bitwidth + x) 0)
      ((if padTo < 4 then 4 else padTo) / 4))) := by
  simp only [array2hexstring, if_neg hb, encodeVals_ok dtype v hleg]
  rw [if_pos (by simpa using hge), if_pos h4]

/-- C1 (amended): the `rtlCompatible = false` round trip
`decode(encode(v, dtype, padTo))` reproduces `v` exactly for the unsigned
integer domains (`BINARY`, `UINT w` with positive width), for every legal
vector and every `padTo` at least the natural length whose padded width
`max(padTo, 4)` is a multiple of 4 (otherwise the encoder itself fails
rendering hex — see `C1_counterexample`, which also shows the signed and
bipolar domains do not round-trip in this mode). -/
theorem C1_round_trip_unsigned (dtype : DataType)
    (hdt : dtype = DataType.BINARY ∨ ∃ w, dtype = DataType.UINT w)
    (hbw : 0 < dtype.bitwidth)
    (v : List ℚ) (hleg : ∀ x ∈ v, dtype.allowed x)
    (padTo : Nat) (hpad : v.length * dtype.bitwidth ≤ padTo) (h4 : padTo % 4 = 0) :
    ∃ s out, array2hexstring v dtype padTo = .ok s ∧
      unpack_word s dtype v.length (if padTo < 4 then 4 else padTo) dtype.bitwidth false
        = .ok out ∧
      out.map (fun z : Int => (z : ℚ)) = v := by
  have hnb : dtype ≠ DataType.BIPOLAR := by
    rcases hdt with h | ⟨w, h⟩ <;> subst h <;> simp
  have hpad4 : (if padTo < 4 then 4 else padTo) % 4 = 0 := by
    by_cases hp : padTo < 4
    · rw [if_pos hp]
    · rw [if_neg hp]; exact h4
  have hpadge : v.length * dtype.bitwidth ≤ (if padTo < 4 then 4 else padTo) := by
    by_cases hp : padTo < 4
    · rw [if_pos hp]; omega
    · rw [if_neg hp]; exact hpad
  have hpadmin : 4 ≤ (if padTo < 4 then 4 else padTo) := by
    by_cases hp : padTo < 4
    · rw [if_pos hp]
    · rw [if_neg hp]; omega
  have hd4 : 0 < (if padTo < 4 then 4 else padTo) / 4 :=
    Nat.div_pos hpadmin (by norm_num)
  have hflen : (v.map (elemBits dtype)).length = v.length := by simp
  have hfbound : ∀ x ∈ v.map (elemBits dtype), x < 2 ^ dtype.bitwidth := by
    intro x hx
    rcases List.mem_map.mp hx with ⟨q, hq, rfl⟩
    exact (elemBits_unsigned dtype hdt q (hleg q hq)).2
  have hnlt : (v.map (elemBits dtype)).foldl (fun a x => a * 2 ^ dtype.bitwidth + x) 0
      < 2 ^ (v.length * dtype.bitwidth) := by
    have := encFold_lt dtype.bitwidth (v.map (elemBits dtype)) hfbound
    rwa [hflen] at this
  have hnpad : (v.map (elemBits dtype)).foldl (fun a x => a * 2 ^ dtype.bitwidth + x) 0
      < 2 ^ (if padTo < 4 then 4 else padTo) :=
    lt_of_lt_of_le hnlt (Nat.pow_le_pow_right (by norm_num) hpadge)
  have hdvd : 4 ∣ (if padTo < 4 then 4 else padTo) := Nat.dvd_of_mod_eq_zero hpad4
  have h16 : (16 : Nat) ^ ((if padTo < 4 then 4 else padTo) / 4)
      = 2 ^ (if padTo < 4 then 4 else padTo) := by
    calc (16 : Nat) ^ ((if padTo < 4 then 4 else padTo) / 4)
        = (2 ^ 4) ^ ((if padTo < 4 then 4 else padTo) / 4) := by norm_num
      _ = 2 ^ (4 * ((if padTo < 4 then 4 else padTo) / 4)) := by rw [← pow_mul]
      _ = 2 ^ (if padTo < 4 then 4 else padTo) := by rw [Nat.mul_div_cancel' hdvd]
  have hn16 : (v.map (elemBits dtype)).foldl (fun a x => a * 2 ^ dtype.bitwidth + x) 0
      < 16 ^ ((if padTo < 4 then 4 else padTo) / 4) := by rw [h16]; exact hnpad
  have hencout := array2hexstring_ok_plain dtype v padTo hnb hleg hpadge hpad4
  have hparse := parseHexWord_render _ _ hd4 hn16
  have hchunks : mapOrFail (fun i => chunkInt
      ((zfill (pyBin ((v.map (elemBits dtype)).foldl (fun a x => a * 2 ^ dtype.bitwidth + x) 0))
        (if padTo < 4 then 4 else padTo)).reverse)
      (i * dtype.bitwidth) ((i + 1) * dtype.bitwidth)) (List.range v.length)
      = .ok ((List.range v.length).map (fun i =>
        (v.map (elemBits dtype)).foldl (fun a x => a * 2 ^ dtype.bitwidth + x) 0
          / 2 ^ (i * dtype.bitwidth) % 2 ^ dtype.bitwidth)) := by
    apply mapOrFail_ok_of_forall
    intro i hi
    have hi2 : i < v.length := List.mem_range.mp hi
    have hform : (i + 1) * dtype.bitwidth = i * dtype.bitwidth + dtype.bitwidth := by ring
    rw [hform]
    apply chunkInt_full _ _ _ _ hbw
    calc i * dtype.bitwidth + dtype.bitwidth = (i + 1) * dtype.bitwidth := by ring
      _ ≤ v.length * dtype.bitwidth := Nat.mul_le_mul_right _ hi2
      _ ≤ (if padTo < 4 then 4 else padTo) := hpadge
  have hrev : (List.range v.length).map (fun i =>
      (v.map (elemBits dtype)).foldl (fun a x => a * 2 ^ dtype.bitwidth + x) 0
        / 2 ^ (i * dtype.bitwidth) % 2 ^ dtype.bitwidth) = (v.map (elemBits dtype)).reverse := by
    have := encFold_chunks dtype.bitwidth (v.map (elemBits dtype)) hfbound
    rwa [hflen] at this
  refine ⟨_, (v.map (elemBits dtype)).map Int.ofNat, hencout, ?_, ?_⟩
  · simp only [unpack_word, hparse, hchunks, hrev]
    congr 1
    simp [orientChunks]
  · rw [List.map_map, List.map_map]
    rw [List.map_congr_left, List.map_id]
    intro q hq
    have h1 := (elemBits_unsigned dtype hdt q (hleg q hq)).1
    simpa using h1

theorem C1_round_trip_unsigned_witness :
    ∃ s out, array2hexstring [1, 0] DataType.BINARY 4 = .ok s ∧
      unpack_word s DataType.BINARY 2 (if 4 < 4 then 4 else 4) DataType.BINARY.bitwidth false
        = .ok out ∧
      out.map (fun z : Int => (z : ℚ)) = [1, 0] :=
  C1_round_trip_unsigned DataType.BINARY (Or.inl rfl) (by decide) [1, 0]
    (by with_unfolding_all decide) 4 (by decide) (by decide)

/-- C1 is false as stated, in two ways.  First, the bipolar domain does not
round-trip under `rtlCompatible = false`: the legal vector `[-1]` encodes to
`"0x0"` but decodes to `[0]`, not `[-1]` (no inverse bipolar map is applied
in this mode; the same holds for signed domains, whose two's-complement
patterns are returned as raw unsigned values).  Second, a `padTo` of 5 —
above the natural length but not a multiple of 4 — makes the encoder itself
fail, so no decode can return `v`. -/
theorem C1_counterexample :
    (DataType.BIPOLAR.allowed (-1) ∧
      1 * DataType.BIPOLAR.bitwidth ≤ 4 ∧
      array2hexstring [-1] DataType.BIPOLAR 4 = .ok "0x0" ∧
      unpack_word "0x0" DataType.BIPOLAR 1 4 1 false = .ok [0] ∧
      ¬(([(0 : Int)].map (fun z : Int => (z : ℚ))) = [-1])) ∧
    (1 * DataType.BINARY.bitwidth ≤ 5 ∧
      array2hexstring [1] DataType.BINARY 5 = .error .hexNotNibbleAligned) := by
  refine ⟨⟨?_, ?_, ?_, ?_, ?_⟩, ?_, ?_⟩ <;> with_unfolding_all decide

theorem mapOrFail_congr {ε α β : Type} (f g : α → Except ε β) :
    ∀ l : List α, (∀ x ∈ l, f x = g x) → mapOrFail f l = mapOrFail g l := by
  intro l
  induction l with
  | nil => intro _; rfl
  | cons a rest ih =>
    intro h
    have ha := h a (List.mem_cons_self a rest)
    have hr := ih (fun x hx => h x (List.mem_cons_of_mem a hx))
    simp only [mapOrFail, ha, hr]

theorem chunkInt_degenerate (bits : List Nat) (lo hi : Nat) (h : hi ≤ lo) :
    chunkInt bits lo hi = .error .malformedWord := by
  have hz : hi - lo = 0 := Nat.sub_eq_zero_of_le h
  simp [chunkInt, hz]

/-- Two values congruent modulo `2^K` agree on every div/mod bit window that
lies below bit `K`. -/
theorem window_congr (n1 n2 K lo w : Nat) (hcong : n1 % 2 ^ K = n2 % 2 ^ K)
    (hle : lo + w ≤ K) : n1 / 2 ^ lo % 2 ^ w = n2 / 2 ^ lo % 2 ^ w := by
  have hdvd : (2 : Nat) ^ (lo + w) ∣ 2 ^ K := pow_dvd_pow 2 hle
  have hmod : n1 % 2 ^ (lo + w) = n2 % 2 ^ (lo + w) := by
    calc n1 % 2 ^ (lo + w) = n1 % 2 ^ K % 2 ^ (lo + w) := (Nat.mod_mod_of_dvd n1 hdvd).symm
      _ = n2 % 2 ^ K % 2 ^ (lo + w) := by rw [hcong]
      _ = n2 % 2 ^ (lo + w) := Nat.mod_mod_of_dvd n2 hdvd
  have h1 : n1 / 2 ^ lo % 2 ^ w = n1 % (2 ^ lo * 2 ^ w) / 2 ^ lo :=
    Nat.div_mod_eq_mod_mul_div n1 (2 ^ lo) (2 ^ w)
  have h2 : n2 / 2 ^ lo % 2 ^ w = n2 % (2 ^ lo * 2 ^ w) / 2 ^ lo :=
    Nat.div_mod_eq_mod_mul_div n2 (2 ^ lo) (2 ^ w)
  rw [h1, h2, ← pow_add, hmod]

/-- C10 (amended): the Row Decoder's output depends only on the low
`innerCount * targetBits` bits of the parsed word — two words whose parsed
values are congruent modulo `2^(innerCount*targetBits)` decode identically
(same values or same failure), for every domain and mode flag — provided
`innerCount * targetBits ≤ packedBits`.  Without that proviso the claim
fails: see `C10_counterexample`. -/
theorem C10_low_bits (dtype : DataType) (inner pb tb : Nat) (rtl : Bool)
    (w1 w2 : String) (n1 n2 : Nat)
    (hp1 : parseHexWord w1 = .ok n1) (hp2 : parseHexWord w2 = .ok n2)
    (hcong : n1 % 2 ^ (inner * tb) = n2 % 2 ^ (inner * tb))
    (hle : inner * tb ≤ pb) :
    unpack_word w1 dtype inner pb tb rtl = unpack_word w2 dtype inner pb tb rtl := by
  have hmap : mapOrFail
      (fun i => chunkInt ((zfill (pyBin n1) pb).reverse) (i * tb) ((i + 1) * tb))
      (List.range inner)
      = mapOrFail
      (fun i => chunkInt ((zfill (pyBin n2) pb).reverse) (i * tb) ((i + 1) * tb))
      (List.range inner) := by
    apply mapOrFail_congr
    intro i hi
    have hi2 : i < inner := List.mem_range.mp hi
    cases Nat.eq_zero_or_pos tb with
    | inl htb0 =>
      subst htb0
      rw [chunkInt_degenerate _ _ _ (by omega), chunkInt_degenerate _ _ _ (by omega)]
    | inr htb =>
      have hform : (i + 1) * tb = i * tb + tb := by ring
      have hwin : i * tb + tb ≤ pb := by
        calc i * tb + tb = (i + 1) * tb := by ring
          _ ≤ inner * tb := Nat.mul_le_mul_right tb hi2
          _ ≤ pb := hle
      rw [hform, chunkInt_full n1 pb (i * tb) tb htb hwin,
        chunkInt_full n2 pb (i * tb) tb htb hwin,
        window_congr n1 n2 (inner * tb) (i * tb) tb hcong
          (by calc i * tb + tb = (i + 1) * tb := by ring
            _ ≤ inner * tb := Nat.mul_le_mul_right tb hi2)]
  simp only [unpack_word, hp1, hp2, hmap]

theorem C10_low_bits_witness :
    parseHexWord "0x2" = .ok 2 ∧ parseHexWord "0x12" = .ok 18 ∧
    2 % 2 ^ (4 * 1) = 18 % 2 ^ (4 * 1) ∧
    unpack_word "0x2" DataType.BINARY 4 4 1 false
      = unpack_word "0x12" DataType.BINARY 4 4 1 false := by
  refine ⟨?h1, ?h2, ?h3, ?_⟩
  case h1 => with_unfolding_all decide
  case h2 => with_unfolding_all decide
  case h3 => decide
  exact C10_low_bits DataType.BINARY 4 4 1 false "0x2" "0x12" 2 18
    (by with_unfolding_all decide) (by with_unfolding_all decide) (by decide) (by decide)

/-- C10 is false as stated (without a bound relating the shape to
`packedBits`): with `packedBits = 4`, `targetBits = 4` and two elements per
row, the words `"0x5"` and `"0x105"` have parsed values congruent modulo
`2^(innerCount*targetBits) = 2^8`, yet the first fails (its second chunk
slice is empty, `int("", 2)`) while the second succeeds — its digit string is
longer than `packedBits`, so the slice reaches real bits. -/
theorem C10_counterexample :
    parseHexWord "0x5" = .ok 5 ∧ parseHexWord "0x105" = .ok 261 ∧
    5 % 2 ^ (2 * 4) = 261 % 2 ^ (2 * 4) ∧
    unpack_word "0x5" DataType.BINARY 2 4 4 false = .error .malformedWord ∧
    unpack_word "0x105" DataType.BINARY 2 4 4 false = .ok [0, 5] := by
  refine ⟨?_, ?_, ?_, ?_, ?_⟩ <;> with_unfolding_all decide

/-- The decoder's outer loop pops exactly one word per outer position, in
order, and returns the untouched remainder of the sequence. -/
theorem unpackRows_spec (dtype : DataType) (inner pb tb : Nat) (rtl : Bool) :
    ∀ (outer : Nat) (data : List String),
      outer ≤ data.length →
      (∀ w ∈ data.take outer, ∃ row, unpack_word w dtype inner pb tb rtl = .ok row) →
      ∃ rows, unpackRows dtype inner pb tb rtl outer data = .ok (rows, data.drop outer) ∧
        rows.length = outer ∧
        ∀ (i : Nat) (row : List Int), rows[i]? = some row →
          ∃ w, data[i]? = some w ∧ unpack_word w dtype inner pb tb rtl = .ok row := by
  intro outer
  induction outer with
  | zero =>
    intro data _ _
    exact ⟨[], rfl, rfl, fun i row hrow => by simp at hrow⟩
  | succ outer ih =>
    intro data hlen hok
    cases data with
    | nil => simp at hlen
    | cons w rest =>
      have hw : ∃ row, unpack_word w dtype inner pb tb rtl = .ok row :=
        hok w (by simp [List.take])
      rcases hw with ⟨row, hrow⟩
      have hok2 : ∀ u ∈ rest.take outer, ∃ r, unpack_word u dtype inner pb tb rtl = .ok r := by
        intro u hu
        exact hok u (by simp [List.take, hu])
      rcases ih rest (by simpa using hlen) hok2 with ⟨rows, hloop, hlen2, hidx⟩
      refine ⟨row :: rows, ?_, by simp [hlen2], ?_⟩
      · simp only [unpackRows, hrow, hloop, List.drop_succ_cons]
      · intro i r hr
        cases i with
        | zero =>
          simp only [List.getElem?_cons_zero] at hr ⊢
          cases hr
          exact ⟨w, rfl, hrow⟩
        | succ i2 =>
          simp only [List.getElem?_cons_succ] at hr ⊢
          exact hidx i2 r hr

/-- C7: given at least `outerElementCount` words (the product of all shape
extents but the last), each of which the Row Decoder accepts, the Tensor
Unpacker consumes exactly `outerElementCount` words from the front of the
sequence — one per outer position, in order, row `i` decoding word `i` — and
returns the remaining words unchanged and in their original order. -/
theorem C7_destructive_consumption (data : List String) (dtype : DataType)
    (shape : List Nat) (pb tb : Nat) (rtl : Bool) (inner : Nat)
    (hsh : shape.getLast? = some inner)
    (hlen : shape.dropLast.foldl (fun a b => a * b) 1 ≤ data.length)
    (hok : ∀ w ∈ data.take (shape.dropLast.foldl (fun a b => a * b) 1),
      ∃ row, unpack_word w dtype inner pb tb rtl = .ok row) :
    ∃ rows, unpack_innermost_dim_from_hex_string data dtype shape pb tb rtl
        = .ok (rows, data.drop (shape.dropLast.foldl (fun a b => a * b) 1)) ∧
      rows.length = shape.dropLast.foldl (fun a b => a * b) 1 ∧
      ∀ (i : Nat) (row : List ℚ), rows[i]? = some row →
        ∃ w irow, data[i]? = some w ∧ unpack_word w dtype inner pb tb rtl = .ok irow ∧
          row = irow.map (fun z : Int => (z : ℚ)) := by
  rcases unpackRows_spec dtype inner pb tb rtl
      (shape.dropLast.foldl (fun a b => a * b) 1) data hlen hok with
    ⟨rows0, hloop, hlen0, hidx⟩
  refine ⟨rows0.map (fun row => row.map (fun z : Int => (z : ℚ))), ?_, by simp [hlen0], ?_⟩
  · simp only [unpack_innermost_dim_from_hex_string, hsh, hloop]
  · intro i row hrow
    rw [List.getElem?_map] at hrow
    cases h0 : rows0[i]? with
    | none => rw [h0] at hrow; cases hrow
    | some irow =>
      rw [h0] at hrow
      have hrow2 : irow.map (fun z : Int => (z : ℚ)) = row := by simpa using hrow
      rcases hidx i irow h0 with ⟨w, hwi, hwrow⟩
      exact ⟨w, irow, hwi, hwrow, hrow2.symm⟩

theorem C7_destructive_consumption_witness :
    ∃ rows, unpack_innermost_dim_from_hex_string ["0x1", "0x2", "0xdead"] DataType.BINARY
        [2, 1] 4 1 false
        = .ok (rows, (["0x1", "0x2", "0xdead"] : List String).drop
            (([2, 1] : List Nat).dropLast.foldl (fun a b => a * b) 1)) ∧
      rows.length = ([2, 1] : List Nat).dropLast.foldl (fun a b => a * b) 1 ∧
      ∀ (i : Nat) (row : List ℚ), rows[i]? = some row →
        ∃ w irow, (["0x1", "0x2", "0xdead"] : List String)[i]? = some w ∧
          unpack_word w DataType.BINARY 1 4 1 false = .ok irow ∧
          row = irow.map (fun z : Int => (z : ℚ)) := by
  have h1 : unpack_word "0x1" DataType.BINARY 1 4 1 false = .ok [1] := by
    with_unfolding_all decide
  have h2 : unpack_word "0x2" DataType.BINARY 1 4 1 false = .ok [0] := by
    with_unfolding_all decide
  apply C7_destructive_consumption ["0x1", "0x2", "0xdead"] DataType.BINARY [2, 1] 4 1 false 1
    (by decide) (by decide)
  intro w hw
  have hw2 : w = "0x1" ∨ w = "0x2" := by
    have ht : (["0x1", "0x2", "0xdead"] : List String).take
        (([2, 1] : List Nat).dropLast.foldl (fun a b => a * b) 1) = ["0x1", "0x2"] := by decide
    rw [ht] at hw
    simpa using hw
  rcases hw2 with rfl | rfl
  · exact ⟨[1], h1⟩
  · exact ⟨[0], h2⟩

theorem NDList.toList_ofList {α : Type} {n : Nat} :
    ∀ l : List (ND α n), (NDList.ofList l).toList = l := by
  intro l
  induction l with
  | nil => rfl
  | cons t ts ih => simp [NDList.ofList, NDList.toList, ih]

theorem hasShape_length {α : Type} : ∀ {n : Nat} (t : ND α n) (s : List Nat),
    hasShape t s → s.length = n := by
  intro n t s h
  cases t with
  | scalar a =>
    have hs : s = [] := by simpa [hasShape] using h
    simp [hs]
  | node subs =>
    cases s with
    | nil => simp [hasShape] at h
    | cons m s2 =>
      obtain ⟨-, h2, -⟩ := h
      simp [h2]

/-- C8: packing a well-shaped rank-`n+1` tensor yields (on success) a tensor
whose shape is the input shape with the last dimension dropped, and every
cell of the output is the Row Encoder result of the innermost slice at the
same outer index path. -/
theorem C8_pack_tensor (dt : DataType) (pad : Nat) :
    ∀ (n : Nat) (t : ND ℚ (n + 1)) (sh : List Nat) (k : Nat) (out : ND String n),
      hasShape t (sh ++ [k]) →
      pack_innermost_dim_as_hex_string dt pad n t = .ok out →
      hasShape out sh ∧
        ∀ (p : List Nat) (c : String), cellAt out p = some c →
          ∃ row, sliceAt t p = some row ∧ array2hexstring row dt pad = .ok c := by
  intro n
  induction n with
  | zero =>
    intro t sh k out hshape hpack
    have hsh0 : sh = [] := by
      have hlen := hasShape_length t (sh ++ [k]) hshape
      cases sh with
      | nil => rfl
      | cons a s => simp at hlen
    subst hsh0
    cases henc : array2hexstring (extractRow t) dt pad with
    | error e =>
      simp only [pack_innermost_dim_as_hex_string, henc] at hpack
      cases hpack
    | ok s =>
      simp only [pack_innermost_dim_as_hex_string, henc] at hpack
      injection hpack with hout
      subst hout
      constructor
      · rfl
      · intro p c hc
        cases p with
        | nil =>
          have hcs : c = s := by
            have : some s = some c := hc
            cases this
            rfl
          subst hcs
          exact ⟨extractRow t, rfl, henc⟩
        | cons i p2 => cases hc
  | succ n ih =>
    intro t sh k out hshape hpack
    cases t with
    | node subs =>
      cases sh with
      | nil =>
        exfalso
        obtain ⟨-, h2, -⟩ := hshape
        simp at h2
      | cons m sh2 =>
        obtain ⟨hm, hlen2, hsub⟩ := hshape
        have hsh2len : sh2.length = n := by
          have h3 : sh2.length + 1 = n + 1 := by simpa using hlen2
          omega
        simp only [pack_innermost_dim_as_hex_string] at hpack
        cases hmap : mapOrFail (pack_innermost_dim_as_hex_string dt pad n) subs.toList with
        | error e =>
          simp only [hmap] at hpack
          cases hpack
        | ok outs =>
          simp only [hmap] at hpack
          injection hpack with hout
          subst hout
          have hf2 := mapOrFail_ok_forall₂ _ subs.toList outs hmap
          have houts_len : subs.toList.length = outs.length := List.Forall₂.length_eq hf2
          constructor
          · refine ⟨?_, ?_, ?_⟩
            · rw [NDList.toList_ofList]; omega
            · exact hsh2len
            · rw [NDList.toList_ofList]
              intro o ho
              rcases List.mem_iff_getElem?.mp ho with ⟨i, hi⟩
              rcases forall₂_getElem?_right hf2 i o hi with ⟨sub, hsubi, hpk⟩
              have hmem : sub ∈ subs.toList := List.mem_iff_getElem?.mpr ⟨i, hsubi⟩
              exact (ih sub sh2 k o (hsub sub hmem) hpk).1
          · intro p c hc
            cases p with
            | nil => cases hc
            | cons i p2 =>
              simp only [cellAt, NDList.toList_ofList] at hc
              cases ho : outs[i]? with
              | none => rw [ho] at hc; cases hc
              | some o =>
                rw [ho, Option.some_bind] at hc
                rcases forall₂_getElem?_right hf2 i o ho with ⟨sub, hsubi, hpk⟩
                have hmem : sub ∈ subs.toList := List.mem_iff_getElem?.mpr ⟨i, hsubi⟩
                rcases (ih sub sh2 k o (hsub sub hmem) hpk).2 p2 c hc with ⟨row, hslice, hencc⟩
                refine ⟨row, ?_, hencc⟩
                simp only [sliceAt, hsubi, Option.some_bind]
                exact hslice

/-- The literal tensor `[[1,1,1,0],[0,1,1,0]]` of the spec's example. -/
def exTensor : ND ℚ 2 :=
  ND.node (NDList.cons (ND.node (NDList.cons (ND.scalar 1) (NDList.cons (ND.scalar 1)
      (NDList.cons (ND.scalar 1) (NDList.cons (ND.scalar 0) NDList.nil)))))
    (NDList.cons (ND.node (NDList.cons (ND.scalar 0) (NDList.cons (ND.scalar 1)
      (NDList.cons (ND.scalar 1) (NDList.cons (ND.scalar 0) NDList.nil)))))
    NDList.nil))

/-- The packed tensor `["0x0e", "0x06"]` of the spec's example. -/
def exPacked : ND String 1 :=
  ND.node (NDList.cons (ND.scalar "0x0e") (NDList.cons (ND.scalar "0x06") NDList.nil))

theorem C8_pack_tensor_witness :
    pack_innermost_dim_as_hex_string DataType.BINARY 8 1 exTensor = .ok exPacked ∧
    hasShape exTensor ([2] ++ [4]) ∧
    hasShape exPacked [2] := by
  have hpack : pack_innermost_dim_as_hex_string DataType.BINARY 8 1 exTensor = .ok exPacked := by
    with_unfolding_all rfl
  have hshape : hasShape exTensor ([2] ++ [4]) := by
    simp [exTensor, hasShape, NDList.toList]
  exact ⟨hpack, hshape,
    (C8_pack_tensor DataType.BINARY 8 1 exTensor [2] 4 exPacked hshape hpack).1⟩
